import Mathlib

set_option maxHeartbeats 1000000
set_option maxRecDepth 10000

/-!
Shallow embedding of `src/stm_imprementation_rust/src/tl2.rs`, the TL2
(Transactional Locking II) software-transactional-memory engine.

Modelling conventions:
* machine integers (`u64`, `usize`) are `Nat`, with an explicit `% 2 ^ 64`
  where u64 overflow matters (the global clock's fetch-and-add);
* Rust panics (`assert_eq!` on misalignment, `Vec` index out of bounds) are
  `Except.error ()`; every fallible operation runs in `Except Unit`;
* the embedding is sequential, so atomics become plain state passing and the
  fences disappear; transaction bodies are deep-embedded programs (`RProg`,
  `WProg`) built from the public handle operations `load` / `store`, exactly
  the interface a Rust closure passed to the drivers can use;
* the drivers' `loop` is given explicit fuel; running out of fuel is the
  distinct outcome `RunOutcome.fuelOut`.
-/

def STRIPE_SIZE : Nat := 8
def MEM_SIZE : Nat := 512

/-- The top (63rd) bit of a versioned-lock word: `1 << 63` in the source. -/
def LOCK_BIT : Nat := 1 <<< 63

/-- Modulus of the u64 arithmetic of the global clock. -/
def WORD_MOD : Nat := 2 ^ 64

/-- `STRIPE_SIZE.trailing_zeros()` of the source: the stripe-size exponent,
3 for the power-of-two `STRIPE_SIZE = 8` (checked by `shift_size_pow`). -/
def SHIFT_SIZE : Nat := 3

deriving instance DecidableEq for Except

/-- The struct `Memory` of tl2.rs: the byte buffer, one versioned-lock word
per stripe, the global version clock, and the address-to-stripe shift. -/
structure Memory where
  mem : List Nat
  lock_ver : List Nat
  global_clock : Nat
  shift_size : Nat
deriving DecidableEq

/-- `Memory::new`: `MEM_SIZE` zero bytes, `MEM_SIZE >> shift` zeroed lock
words, clock 0; `shift = STRIPE_SIZE.trailing_zeros() = SHIFT_SIZE`. -/
def Memory.new : Memory :=
  { mem := List.replicate MEM_SIZE 0
    lock_ver := List.replicate (MEM_SIZE >>> SHIFT_SIZE) 0
    global_clock := 0
    shift_size := SHIFT_SIZE }

/-- `Memory::inc_global_clock`: `fetch_add(1) + 1`, i.e. the post-increment
value, with u64 wrap-around. -/
def Memory.inc_global_clock (m : Memory) : Nat × Memory :=
  let v := (m.global_clock + 1) % WORD_MOD
  (v, { m with global_clock := v })

/-- `Memory::get_version`: load the stripe's word and mask off the lock bit
(`n & !(1 << 63)`); indexing `lock_ver` out of bounds panics. -/
def Memory.get_version (m : Memory) (addr : Nat) : Except Unit Nat :=
  match m.lock_ver.get? (addr >>> m.shift_size) with
  | some n => .ok (n &&& (LOCK_BIT - 1))
  | none => .error ()

/-- `Memory::test_not_modify`: the whole versioned-lock word, as an unsigned
integer, is `≤ version` (a set lock bit makes the word exceed any version
argument below `2 ^ 63`). -/
def Memory.test_not_modify (m : Memory) (addr : Nat) (version : Nat) :
    Except Unit Bool :=
  match m.lock_ver.get? (addr >>> m.shift_size) with
  | some n => .ok (decide (n ≤ version))
  | none => .error ()

/-- `Memory::lock_addr`: `fetch_update` that sets the lock bit iff it is
clear, reporting whether the lock was acquired. -/
def Memory.lock_addr (m : Memory) (addr : Nat) :
    Except Unit (Bool × Memory) :=
  match m.lock_ver.get? (addr >>> m.shift_size) with
  | none => .error ()
  | some val =>
    if val &&& LOCK_BIT = 0 then
      .ok (true,
        { m with lock_ver := m.lock_ver.set (addr >>> m.shift_size) (val ||| LOCK_BIT) })
    else
      .ok (false, m)

/-- `Memory::unlock_addr`: `fetch_and(!(1 << 63))`, clearing just the lock
bit and keeping the version. -/
def Memory.unlock_addr (m : Memory) (addr : Nat) : Except Unit Memory :=
  match m.lock_ver.get? (addr >>> m.shift_size) with
  | none => .error ()
  | some val =>
    .ok { m with
      lock_ver := m.lock_ver.set (addr >>> m.shift_size) (val &&& (LOCK_BIT - 1)) }

/-- Copy of the `for i in 0..STRIPE_SIZE { mem[addr + i] }` loop of the two
`load`s: panics iff some index `addr + i` is out of bounds. -/
def copyStripe (mem : List Nat) (addr : Nat) : Except Unit (List Nat) :=
  if addr + STRIPE_SIZE ≤ mem.length then
    .ok ((List.range STRIPE_SIZE).map fun i => mem.getD (addr + i) 0)
  else
    .error ()

/-- The struct `ReadTrans` minus its `&Memory` field (the memory is passed to
`load` explicitly, and handed back unchanged, mirroring the shared borrow). -/
structure ReadTrans where
  read_version : Nat
  conflict : Bool
deriving DecidableEq

/-- `ReadTrans::new`: snapshot the global clock, no conflict yet. -/
def ReadTrans.new (m : Memory) : ReadTrans :=
  { read_version := m.global_clock, conflict := false }

/-- `ReadTrans::load`: alignment assertion, poison check, double-checked
versioned read of one stripe. -/
def ReadTrans.load (t : ReadTrans) (m : Memory) (addr : Nat) :
    Except Unit (Option (List Nat) × ReadTrans × Memory) :=
  if addr &&& (STRIPE_SIZE - 1) ≠ 0 then .error ()
  else if t.conflict then .ok (none, t, m)
  else
    match m.test_not_modify addr t.read_version with
    | .error e => .error e
    | .ok c1 =>
      if c1 = false then
        .ok (none, { t with conflict := true }, m)
      else
        match copyStripe m.mem addr with
        | .error e => .error e
        | .ok bytes =>
          match m.test_not_modify addr t.read_version with
          | .error e => .error e
          | .ok c2 =>
            if c2 = false then
              .ok (none, { t with conflict := true }, m)
            else
              .ok (some bytes, t, m)

/-- `HashSet::insert` on the read-set: adds the address when absent. -/
def rsInsert (rs : List Nat) (addr : Nat) : List Nat :=
  if addr ∈ rs then rs else addr :: rs

/-- `HashMap::insert` on the write-set: upsert, the new binding replaces any
earlier binding of the same address. -/
def wsInsert (ws : List (Nat × List Nat)) (addr : Nat) (val : List Nat) :
    List (Nat × List Nat) :=
  (addr, val) :: ws.filter fun p => p.1 ≠ addr

/-- The struct `WriteTrans` minus its `&mut Memory` field (the memory is
threaded explicitly through the operations that touch it). -/
structure WriteTrans where
  read_version : Nat
  read_set : List Nat
  write_set : List (Nat × List Nat)
  locked : List Nat
  conflict : Bool
deriving DecidableEq

/-- `WriteTrans::new`: snapshot the clock; all sets empty. -/
def WriteTrans.new (m : Memory) : WriteTrans :=
  { read_version := m.global_clock
    read_set := []
    write_set := []
    locked := []
    conflict := false }

/-- `WriteTrans::store`: alignment assertion, then buffer the value in the
write-set; the shared memory is not touched. -/
def WriteTrans.store (t : WriteTrans) (addr : Nat) (val : List Nat) :
    Except Unit WriteTrans :=
  if addr &&& (STRIPE_SIZE - 1) ≠ 0 then .error ()
  else .ok { t with write_set := wsInsert t.write_set addr val }

/-- `WriteTrans::load`: alignment assertion, poison check, read-set insert,
read-your-own-writes lookup, else the double-checked memory read. -/
def WriteTrans.load (t : WriteTrans) (m : Memory) (addr : Nat) :
    Except Unit (Option (List Nat) × WriteTrans) :=
  if addr &&& (STRIPE_SIZE - 1) ≠ 0 then .error ()
  else if t.conflict then .ok (none, t)
  else
    let t1 := { t with read_set := rsInsert t.read_set addr }
    match t1.write_set.lookup addr with
    | some v => .ok (some v, t1)
    | none =>
      match m.test_not_modify addr t1.read_version with
      | .error e => .error e
      | .ok c1 =>
        if c1 = false then
          .ok (none, { t1 with conflict := true })
        else
          match copyStripe m.mem addr with
          | .error e => .error e
          | .ok bytes =>
            match m.test_not_modify addr t1.read_version with
            | .error e => .error e
            | .ok c2 =>
              if c2 = false then
                .ok (none, { t1 with conflict := true })
              else
                .ok (some bytes, t1)

/-- Loop body of `WriteTrans::lock_write_set`: try to lock each write-set
address in turn, remembering successes in `locked`; stop at the first
failure. -/
def lockWriteSetGo (ws : List (Nat × List Nat)) (t : WriteTrans) (m : Memory) :
    Except Unit (Bool × WriteTrans × Memory) :=
  match ws with
  | [] => .ok (true, t, m)
  | (addr, _) :: rest =>
    match m.lock_addr addr with
    | .error e => .error e
    | .ok r =>
      if r.1 then
        lockWriteSetGo rest { t with locked := t.locked ++ [addr] } r.2
      else
        .ok (false, t, r.2)

/-- `WriteTrans::lock_write_set`. -/
def WriteTrans.lock_write_set (t : WriteTrans) (m : Memory) :
    Except Unit (Bool × WriteTrans × Memory) :=
  lockWriteSetGo t.write_set t m

/-- Loop body of `WriteTrans::validate_read_set`: a read-set address that was
also written is checked via `get_version` (lock bit masked off); any other
read-set address is checked via `test_not_modify` (whole word). -/
def validateGo (t : WriteTrans) (m : Memory) (rs : List Nat) :
    Except Unit Bool :=
  match rs with
  | [] => .ok true
  | addr :: rest =>
    if (t.write_set.lookup addr).isSome then
      match m.get_version addr with
      | .error e => .error e
      | .ok version =>
        if version > t.read_version then .ok false
        else validateGo t m rest
    else
      match m.test_not_modify addr t.read_version with
      | .error e => .error e
      | .ok c =>
        if c = false then .ok false
        else validateGo t m rest

/-- `WriteTrans::validate_read_set`. -/
def WriteTrans.validate_read_set (t : WriteTrans) (m : Memory) :
    Except Unit Bool :=
  validateGo t m t.read_set

/-- One stripe-sized write-back `mem[addr + i] = val[i]` of `commit`. -/
def setBytes (mem : List Nat) (addr : Nat) (val : List Nat) : List Nat :=
  (List.range STRIPE_SIZE).foldl (fun acc i => acc.set (addr + i) (val.getD i 0)) mem

/-- Write-back loop of `commit`: copy every write-set value into memory,
panicking at an out-of-bounds index. -/
def writeBackGo (ws : List (Nat × List Nat)) (mem : List Nat) :
    Except Unit (List Nat) :=
  match ws with
  | [] => .ok mem
  | (addr, val) :: rest =>
    if addr + STRIPE_SIZE ≤ mem.length then
      writeBackGo rest (setBytes mem addr val)
    else
      .error ()

/-- Version-publication loop of `commit`: store `version` (lock bit clear)
into every write-set stripe's word. -/
def publishGo (ws : List (Nat × List Nat)) (version : Nat) (m : Memory) :
    Except Unit Memory :=
  match ws with
  | [] => .ok m
  | (addr, _) :: rest =>
    if addr >>> m.shift_size < m.lock_ver.length then
      publishGo rest version
        { m with lock_ver := m.lock_ver.set (addr >>> m.shift_size) version }
    else
      .error ()

/-- `WriteTrans::commit`: write back the write-set, publish `version` to
every written stripe (releasing the locks), clear `locked`. -/
def WriteTrans.commit (t : WriteTrans) (m : Memory) (version : Nat) :
    Except Unit (WriteTrans × Memory) :=
  match writeBackGo t.write_set m.mem with
  | .error e => .error e
  | .ok mem1 =>
    match publishGo t.write_set version { m with mem := mem1 } with
    | .error e => .error e
    | .ok m1 => .ok ({ t with locked := [] }, m1)

/-- Loop of `impl Drop for WriteTrans`: unlock every recorded address. -/
def dropTransGo (locked : List Nat) (m : Memory) : Except Unit Memory :=
  match locked with
  | [] => .ok m
  | addr :: rest =>
    match m.unlock_addr addr with
    | .error e => .error e
    | .ok m1 => dropTransGo rest m1

/-- `impl Drop for WriteTrans`: runs on every exit of a driver iteration. -/
def WriteTrans.dropTrans (t : WriteTrans) (m : Memory) : Except Unit Memory :=
  dropTransGo t.locked m

/-- The enum `STMResult` of tl2.rs. -/
inductive STMResult (T : Type) where
  | Ok : T → STMResult T
  | Retry : STMResult T
  | Abort : STMResult T
deriving DecidableEq

/-- Deep embedding of a read-transaction body: the closure passed to
`read_transaction` can only call `load` on its handle and branch on the
result before returning an `STMResult`. -/
inductive RProg (R : Type) where
  | ret : STMResult R → RProg R
  | loadThen : Nat → (Option (List Nat) → RProg R) → RProg R

/-- Deep embedding of a write-transaction body: the closure passed to
`write_transaction` can call `load` and `store` on its handle. -/
inductive WProg (R : Type) where
  | ret : STMResult R → WProg R
  | loadThen : Nat → (Option (List Nat) → WProg R) → WProg R
  | storeThen : Nat → List Nat → WProg R → WProg R

/-- Run a read body against its handle: memory is threaded but only read. -/
def runRBody {R : Type} : RProg R → ReadTrans → Memory →
    Except Unit (STMResult R × ReadTrans × Memory)
  | .ret r, t, m => .ok (r, t, m)
  | .loadThen addr k, t, m =>
    match t.load m addr with
    | .error e => .error e
    | .ok out => runRBody (k out.1) out.2.1 out.2.2

/-- Run a write body against its handle: `load` and `store` never touch the
shared memory, so the same memory is passed on. -/
def runWBody {R : Type} : WProg R → WriteTrans → Memory →
    Except Unit (STMResult R × WriteTrans)
  | .ret r, t, _ => .ok (r, t)
  | .loadThen addr k, t, m =>
    match t.load m addr with
    | .error e => .error e
    | .ok out => runWBody (k out.1) out.2 m
  | .storeThen addr v p, t, m =>
    match t.store addr v with
    | .error e => .error e
    | .ok t1 => runWBody p t1 m

/-- Outcome of a driver run: a returned `Option` value with the final memory,
a Rust panic, or fuel exhaustion of the modelled `loop`. -/
inductive RunOutcome (R : Type) where
  | done : Option R → Memory → RunOutcome R
  | panicked : RunOutcome R
  | fuelOut : Memory → RunOutcome R
deriving DecidableEq

/-- Result of the post-body half of one `write_transaction` iteration
(lines 314-327 of tl2.rs): either a committed state or a state to retry
from, locks released either way. -/
inductive AttemptResult where
  | committed : Memory → AttemptResult
  | failed : Memory → AttemptResult
deriving DecidableEq

/-- Commit followed by the destructor of the (now lock-free) transaction:
the common tail of both commit branches. -/
def commitAndDrop (t : WriteTrans) (m : Memory) (version : Nat) :
    Except Unit AttemptResult :=
  match t.commit m version with
  | .error e => .error e
  | .ok r2 =>
    match r2.1.dropTrans r2.2 with
    | .error e => .error e
    | .ok m4 => .ok (.committed m4)

/-- The post-body half of one `write_transaction` iteration: lock the
write-set, bump the clock, validate the read-set unless
`read_version + 1 == new_version`, then commit; every non-commit exit runs
the destructor (releasing the acquired locks) before the driver retries. -/
def writeAttempt (t : WriteTrans) (m : Memory) : Except Unit AttemptResult :=
  match t.lock_write_set m with
  | .error e => .error e
  | .ok r =>
    if r.1 = false then
      match r.2.1.dropTrans r.2.2 with
      | .error e => .error e
      | .ok m1 => .ok (.failed m1)
    else
      let t1 := r.2.1
      let p := r.2.2.inc_global_clock
      if t1.read_version + 1 ≠ p.1 then
        match t1.validate_read_set p.2 with
        | .error e => .error e
        | .ok c =>
          if c = false then
            match t1.dropTrans p.2 with
            | .error e => .error e
            | .ok m3 => .ok (.failed m3)
          else
            commitAndDrop t1 p.2 p.1
      else
        commitAndDrop t1 p.2 p.1

/-- `STM::read_transaction`: the retry loop over fresh `ReadTrans` objects,
with explicit fuel. -/
def STM.read_transaction {R : Type} (prog : RProg R) :
    Nat → Memory → RunOutcome R
  | 0, m => .fuelOut m
  | fuel + 1, m =>
    match runRBody prog (ReadTrans.new m) m with
    | .error _ => .panicked
    | .ok (.Abort, _, m1) => .done none m1
    | .ok (.Retry, t1, m1) =>
      if t1.conflict then STM.read_transaction prog fuel m1
      else .done none m1
    | .ok (.Ok v, t1, m1) =>
      if t1.conflict then STM.read_transaction prog fuel m1
      else .done (some v) m1

/-- `STM::write_transaction`: the retry loop over fresh `WriteTrans` objects,
with explicit fuel; the destructor runs on every exit of an iteration. -/
def STM.write_transaction {R : Type} (prog : WProg R) :
    Nat → Memory → RunOutcome R
  | 0, m => .fuelOut m
  | fuel + 1, m =>
    match runWBody prog (WriteTrans.new m) m with
    | .error _ => .panicked
    | .ok (.Abort, t1) =>
      match t1.dropTrans m with
      | .error _ => .panicked
      | .ok m1 => .done none m1
    | .ok (.Retry, t1) =>
      match t1.dropTrans m with
      | .error _ => .panicked
      | .ok m1 =>
        if t1.conflict then STM.write_transaction prog fuel m1
        else .done none m1
    | .ok (.Ok v, t1) =>
      if t1.conflict then
        match t1.dropTrans m with
        | .error _ => .panicked
        | .ok m1 => STM.write_transaction prog fuel m1
      else
        match writeAttempt t1 m with
        | .error _ => .panicked
        | .ok (.committed m1) => .done (some v) m1
        | .ok (.failed m1) => STM.write_transaction prog fuel m1

/-- Concrete all-ones stripe used by the concrete runs below. -/
def stripe1s : List Nat := List.replicate STRIPE_SIZE 1

/-- Concrete write body: store `stripe1s` at stripe 0, then succeed with 5. -/
def wprog1 : WProg Nat := .storeThen 0 stripe1s (.ret (.Ok 5))

/-- Concrete read body: load stripe 0 and succeed with its length. -/
def rprog1 : RProg Nat := .loadThen 0 fun o => .ret (.Ok (o.getD []).length)

/-- Per-address commit-time validation check, phrased as the specification
states it: a written address passes iff its version with the lock bit masked
off is at most `read_version`; any other address passes iff its whole
versioned-lock word is at most `read_version`. -/
def validCheck (t : WriteTrans) (m : Memory) (addr : Nat) : Bool :=
  if (t.write_set.lookup addr).isSome then
    decide ((m.lock_ver.getD (addr >>> m.shift_size) 0) &&& (LOCK_BIT - 1) ≤ t.read_version)
  else
    decide (m.lock_ver.getD (addr >>> m.shift_size) 0 ≤ t.read_version)

/-- Concrete run of `wprog1` from the fresh memory, and its final memory. -/
def wRun1 : RunOutcome Nat := STM.write_transaction wprog1 1 Memory.new

def wMem1 : Memory :=
  match wRun1 with
  | .done _ m => m
  | .panicked => Memory.new
  | .fuelOut m => m

/-- Concrete write transaction mid-commit: snapshot 5, read stripe 0,
pending write to stripe 1 (address 8). -/
def c2t : WriteTrans :=
  { read_version := 5, read_set := [0], write_set := [(8, stripe1s)],
    locked := [], conflict := false }

/-- Memory whose stripe 0 carries version 7 (newer than snapshot 5) under a
clock of 9. -/
def c2m : Memory :=
  { mem := List.replicate MEM_SIZE 0
    lock_ver := (List.replicate (MEM_SIZE >>> SHIFT_SIZE) 0).set 0 7
    global_clock := 9
    shift_size := SHIFT_SIZE }

def c2t1 : WriteTrans := { c2t with locked := [8] }

def c2m1 : Memory := { c2m with lock_ver := c2m.lock_ver.set 1 LOCK_BIT }

def c2m3 : Memory := { c2m with global_clock := 10 }

/-- The write transaction right after `store(0, stripe1s)` on a fresh one. -/
def c3t1 : WriteTrans :=
  { WriteTrans.new Memory.new with write_set := [(0, stripe1s)] }

/-- Fresh memory whose stripe-0 word is the unlocked version 5. -/
def m8 : Memory := { Memory.new with lock_ver := Memory.new.lock_ver.set 0 5 }

section BitLemmas

theorem shift_size_pow : 2 ^ SHIFT_SIZE = STRIPE_SIZE := by
  decide

theorem lock_bit_eq : LOCK_BIT = 2 ^ 63 := by
  decide

theorem word_mod_eq : WORD_MOD = 2 ^ 64 := rfl

theorem and_mask_eq_mod (w : Nat) : w &&& (LOCK_BIT - 1) = w % 2 ^ 63 := by
  rw [lock_bit_eq, Nat.and_pow_two_sub_one_eq_mod]

theorem and_lock_bit_eq_zero_iff (w : Nat) :
    w &&& LOCK_BIT = 0 ↔ w.testBit 63 = false := by
  rw [lock_bit_eq, Nat.and_two_pow]
  cases h : w.testBit 63 <;> simp [h]

theorem testBit63_false_iff {w : Nat} (hw : w < WORD_MOD) :
    w.testBit 63 = false ↔ w < 2 ^ 63 := by
  rw [Nat.testBit_to_div_mod]
  rw [word_mod_eq] at hw
  have hd := Nat.div_add_mod w (2 ^ 63)
  have hr : w % 2 ^ 63 < 2 ^ 63 := Nat.mod_lt _ (by positivity)
  have h1 : w / 2 ^ 63 < 2 := by
    by_contra hc
    push_neg at hc
    have h2 : 2 * 2 ^ 63 ≤ (w / 2 ^ 63) * 2 ^ 63 := Nat.mul_le_mul_right _ hc
    have h64 : (2 : Nat) * 2 ^ 63 = 2 ^ 64 := by norm_num
    omega
  have h0 : w / 2 ^ 63 = 0 ∨ w / 2 ^ 63 = 1 := by omega
  rcases h0 with h0 | h0 <;> simp [h0] <;> omega

theorem and_lock_bit_zero_iff_lt {w : Nat} (hw : w < WORD_MOD) :
    w &&& LOCK_BIT = 0 ↔ w < 2 ^ 63 := by
  rw [and_lock_bit_eq_zero_iff, testBit63_false_iff hw]

end BitLemmas

section EquationLemmas

theorem test_not_modify_eq_some {m : Memory} {addr w : Nat} (v : Nat)
    (hw : m.lock_ver.get? (addr >>> m.shift_size) = some w) :
    m.test_not_modify addr v = .ok (decide (w ≤ v)) := by
  unfold Memory.test_not_modify
  rw [hw]

theorem get_version_eq_some {m : Memory} {addr w : Nat}
    (hw : m.lock_ver.get? (addr >>> m.shift_size) = some w) :
    m.get_version addr = .ok (w &&& (LOCK_BIT - 1)) := by
  unfold Memory.get_version
  rw [hw]

theorem copyStripe_eq {mem : List Nat} {addr : Nat}
    (h : addr + STRIPE_SIZE ≤ mem.length) :
    copyStripe mem addr =
      .ok ((List.range STRIPE_SIZE).map fun i => mem.getD (addr + i) 0) := by
  unfold copyStripe
  rw [if_pos h]

theorem lookup_wsInsert_self (ws : List (Nat × List Nat)) (addr : Nat)
    (v : List Nat) : (wsInsert ws addr v).lookup addr = some v := by
  simp [wsInsert, List.lookup]

end EquationLemmas

/-- C8: for an in-range stripe address whose versioned-lock word is `w`
(a u64, so `w < WORD_MOD`) and any `v < 2 ^ 63`, the single comparison
`w ≤ v` of `test_not_modify` is true iff the lock bit (bit 63) is clear and
the 63-bit version number (the value of `get_version`) is at most `v`; in
particular it is false for every locked stripe. -/
theorem test_not_modify_single_compare (m : Memory) (addr v w ver : Nat)
    (hw : m.lock_ver.get? (addr >>> m.shift_size) = some w)
    (hlt : w < WORD_MOD) (hv : v < LOCK_BIT)
    (hver : m.get_version addr = .ok ver) :
    (m.test_not_modify addr v = .ok true ↔
      w &&& LOCK_BIT = 0 ∧ ver ≤ v)
  ∧ (w &&& LOCK_BIT ≠ 0 → m.test_not_modify addr v = .ok false) := by
  have htest := test_not_modify_eq_some v hw
  have hver2 := get_version_eq_some hw
  rw [hver] at hver2
  have hvereq : ver = w % 2 ^ 63 := by
    have := hver2.symm
    simp only [Except.ok.injEq] at this
    rw [← this, and_mask_eq_mod]
  have hv63 : v < 2 ^ 63 := by rw [lock_bit_eq] at hv; exact hv
  constructor
  · rw [htest, hvereq, and_lock_bit_zero_iff_lt hlt]
    constructor
    · intro h
      simp only [Except.ok.injEq, decide_eq_true_eq] at h
      omega
    · intro h
      have : w ≤ v := by omega
      simp [this]
  · intro hbit
    rw [htest]
    have hge : ¬ w < 2 ^ 63 := fun hlt63 =>
      hbit ((and_lock_bit_zero_iff_lt hlt).mpr hlt63)
    have : ¬ w ≤ v := by omega
    simp [this]

/-- C6 counterexample: address 512 is stripe-aligned but not below
`MEM_SIZE`, yet `WriteTrans::store` accepts it and buffers the write —
an invalid address that does not fail fast and does produce a buffered
write. -/
theorem store_out_of_range_buffered :
    512 % STRIPE_SIZE = 0 ∧ ¬ 512 < MEM_SIZE ∧
    (WriteTrans.new Memory.new).store 512 stripe1s =
      Except.ok { WriteTrans.new Memory.new with write_set := [(512, stripe1s)] } ∧
    ((WriteTrans.new Memory.new).store 512 stripe1s).isOk = true := by
  refine ⟨by decide, by decide, by rfl, by rfl⟩

/-- C6 (amended): every `load`/`store` call with a non-stripe-aligned address
fails fast (panics at the alignment assertion) and produces no transactional
outcome; range, however, is not checked at the call site: `store` buffers a
stripe-aligned out-of-range address like any other. -/
theorem misaligned_access_fails_fast :
    (∀ (addr : Nat), addr &&& (STRIPE_SIZE - 1) ≠ 0 →
      (∀ (t : WriteTrans) (v : List Nat), t.store addr v = .error ())
      ∧ (∀ (t : WriteTrans) (m : Memory), t.load m addr = .error ())
      ∧ (∀ (t : ReadTrans) (m : Memory), t.load m addr = .error ()))
  ∧ (∀ (addr : Nat) (t : WriteTrans) (v : List Nat),
      addr &&& (STRIPE_SIZE - 1) = 0 →
      t.store addr v =
        Except.ok { t with write_set := wsInsert t.write_set addr v }) := by
  constructor
  · intro addr h
    refine ⟨fun t v => ?_, fun t m => ?_, fun t m => ?_⟩
    · unfold WriteTrans.store
      rw [if_pos h]
    · unfold WriteTrans.load
      rw [if_pos h]
    · unfold ReadTrans.load
      rw [if_pos h]
  · intro addr t v h
    unfold WriteTrans.store
    rw [if_neg (by simp [h])]

/-- C3: with the conflict flag clear, a `load` at a stripe already in the
write-set returns the buffered value, for every memory state alike (the
shared bytes are not consulted), and a later `store` to the same stripe
supersedes an earlier one. -/
theorem read_your_own_writes :
    (∀ (t t1 : WriteTrans) (addr : Nat) (v : List Nat) (m : Memory),
      t.conflict = false → t.store addr v = .ok t1 →
      t1.load m addr =
        .ok (some v, { t1 with read_set := rsInsert t1.read_set addr }))
  ∧ (∀ (t t1 t2 : WriteTrans) (addr : Nat) (v1 v2 : List Nat),
      t.store addr v1 = .ok t1 → t1.store addr v2 = .ok t2 →
      t2.write_set.lookup addr = some v2) := by
  constructor
  · intro t t1 addr v m hc hs
    unfold WriteTrans.store at hs
    split at hs
    · simp at hs
    · rename_i hal
      simp only [Except.ok.injEq] at hs
      subst hs
      unfold WriteTrans.load
      rw [if_neg hal, if_neg (by simp [hc])]
      simp only [lookup_wsInsert_self]
  · intro t t1 t2 addr v1 v2 h1 h2
    unfold WriteTrans.store at h1 h2
    split at h1
    · simp at h1
    · simp only [Except.ok.injEq] at h1
      subst h1
      split at h2
      · simp at h2
      · simp only [Except.ok.injEq] at h2
        subst h2
        simp only [lookup_wsInsert_self]

/-- C4: `ReadTrans::load` on an aligned, in-range stripe: a poisoned
transaction (conflict already set) returns nil unchanged — so every later
load is nil too; otherwise the versioned-lock check decides the outcome:
if the word exceeds the snapshot the conflict flag is set and nil returned,
and only if the check passes are the copied bytes returned. -/
theorem read_load_double_check :
    (∀ (t : ReadTrans) (m : Memory) (addr : Nat),
      addr &&& (STRIPE_SIZE - 1) = 0 → t.conflict = true →
      t.load m addr = .ok (none, t, m))
  ∧ (∀ (t : ReadTrans) (m : Memory) (addr w : Nat),
      addr &&& (STRIPE_SIZE - 1) = 0 → t.conflict = false →
      m.lock_ver.get? (addr >>> m.shift_size) = some w →
      addr + STRIPE_SIZE ≤ m.mem.length →
      (¬ w ≤ t.read_version →
        t.load m addr = .ok (none, { t with conflict := true }, m))
      ∧ (w ≤ t.read_version →
        t.load m addr =
          .ok (some ((List.range STRIPE_SIZE).map fun i => m.mem.getD (addr + i) 0),
            t, m))) := by
  constructor
  · intro t m addr hal hc
    unfold ReadTrans.load
    rw [if_neg (by simp [hal]), if_pos hc]
  · intro t m addr w hal hc hw hlen
    have h1 := test_not_modify_eq_some t.read_version hw
    constructor
    · intro hno
      have hd : decide (w ≤ t.read_version) = false := decide_eq_false hno
      rw [hd] at h1
      unfold ReadTrans.load
      rw [if_neg (by simp [hal]), if_neg (by simp [hc])]
      rw [h1]
      rfl
    · intro hyes
      have hd : decide (w ≤ t.read_version) = true := decide_eq_true hyes
      rw [hd] at h1
      unfold ReadTrans.load
      rw [if_neg (by simp [hal]), if_neg (by simp [hc])]
      rw [h1, copyStripe_eq hlen]
      rfl

section ReadFrame

theorem rload_mem_pres {t : ReadTrans} {m : Memory} {addr : Nat}
    {out : Option (List Nat) × ReadTrans × Memory}
    (h : t.load m addr = .ok out) :
    out.2.2 = m ∧ out.2.1.read_version = t.read_version := by
  unfold ReadTrans.load at h
  split at h
  · exact Except.noConfusion h
  split at h
  · cases h
    exact ⟨rfl, rfl⟩
  split at h
  · exact Except.noConfusion h
  split at h
  · cases h
    exact ⟨rfl, rfl⟩
  split at h
  · exact Except.noConfusion h
  split at h
  · exact Except.noConfusion h
  split at h
  · cases h
    exact ⟨rfl, rfl⟩
  · cases h
    exact ⟨rfl, rfl⟩

theorem runRBody_mem_eq {R : Type} (p : RProg R) :
    ∀ (t : ReadTrans) (m : Memory) (out : STMResult R × ReadTrans × Memory),
      runRBody p t m = .ok out → out.2.2 = m := by
  induction p with
  | ret r =>
    intro t m out h
    unfold runRBody at h
    cases h
    rfl
  | loadThen addr k ih =>
    intro t m out h
    unfold runRBody at h
    split at h
    · exact Except.noConfusion h
    · rename_i o ho
      rw [ih _ _ _ _ h, (rload_mem_pres ho).1]

theorem read_transaction_mem_eq {R : Type} (prog : RProg R) :
    ∀ (fuel : Nat) (m : Memory),
      (∀ (res : Option R) (m' : Memory),
        STM.read_transaction prog fuel m = .done res m' → m' = m)
      ∧ (∀ m', STM.read_transaction prog fuel m = .fuelOut m' → m' = m) := by
  intro fuel
  induction fuel with
  | zero =>
    intro m
    refine ⟨fun res m' h => ?_, fun m' h => ?_⟩
    · exact RunOutcome.noConfusion h
    · unfold STM.read_transaction at h
      cases h
      rfl
  | succ n ih =>
    intro m
    constructor
    · intro res m' h
      unfold STM.read_transaction at h
      split at h
      · exact RunOutcome.noConfusion h
      · rename_i m1 hrun
        cases h
        exact runRBody_mem_eq prog _ _ _ hrun
      · rename_i t1 m1 hrun
        split at h
        · exact ((ih m1).1 res m' h).trans (runRBody_mem_eq prog _ _ _ hrun)
        · cases h
          exact runRBody_mem_eq prog _ _ _ hrun
      · rename_i v t1 m1 hrun
        split at h
        · exact ((ih m1).1 res m' h).trans (runRBody_mem_eq prog _ _ _ hrun)
        · cases h
          exact runRBody_mem_eq prog _ _ _ hrun
    · intro m' h
      unfold STM.read_transaction at h
      split at h
      · exact RunOutcome.noConfusion h
      · exact RunOutcome.noConfusion h
      · rename_i t1 m1 hrun
        split at h
        · exact ((ih m1).2 m' h).trans (runRBody_mem_eq prog _ _ _ hrun)
        · exact RunOutcome.noConfusion h
      · rename_i v t1 m1 hrun
        split at h
        · exact ((ih m1).2 m' h).trans (runRBody_mem_eq prog _ _ _ hrun)
        · exact RunOutcome.noConfusion h

end ReadFrame

/-- C10: a read transaction never mutates shared state — `ReadTrans::load`
hands back the memory (bytes, versioned-lock words, global clock) it was
given, its only other effect is on the transaction's own fields, and a whole
`read_transaction` run returns the memory it started from. -/
theorem read_transaction_no_mutation {R : Type} (prog : RProg R)
    (fuel : Nat) (m : Memory) :
    (∀ (t : ReadTrans) (addr : Nat) (out : Option (List Nat) × ReadTrans × Memory),
      t.load m addr = .ok out →
      out.2.2 = m ∧ out.2.1.read_version = t.read_version)
  ∧ (∀ (res : Option R) (m' : Memory),
      STM.read_transaction prog fuel m = .done res m' → m' = m)
  ∧ (∀ m', STM.read_transaction prog fuel m = .fuelOut m' → m' = m) := by
  exact ⟨fun t addr out h => rload_mem_pres h,
    (read_transaction_mem_eq prog fuel m).1,
    (read_transaction_mem_eq prog fuel m).2⟩

/-- C7: the drivers dispatch on the body's tag — `Abort` returns nil at once
with no retry; `Retry` retries on a conflict and otherwise returns nil;
`Ok v` retries on a conflict and otherwise returns `v` (on the write path
only after the commit protocol succeeds, a failed lock or validation step
continuing the loop). -/
theorem driver_dispatch {R : Type} (prog : WProg R) (rprog : RProg R)
    (fuel : Nat) (m : Memory) :
    (∀ (t1 : WriteTrans) (m1 : Memory),
      runWBody prog (WriteTrans.new m) m = .ok (.Abort, t1) →
      t1.dropTrans m = .ok m1 →
      STM.write_transaction prog (fuel + 1) m = .done none m1)
  ∧ (∀ (t1 : WriteTrans) (m1 : Memory),
      runWBody prog (WriteTrans.new m) m = .ok (.Retry, t1) →
      t1.dropTrans m = .ok m1 →
      (t1.conflict = true →
        STM.write_transaction prog (fuel + 1) m =
          STM.write_transaction prog fuel m1)
      ∧ (t1.conflict = false →
        STM.write_transaction prog (fuel + 1) m = .done none m1))
  ∧ (∀ (v : R) (t1 : WriteTrans) (m1 : Memory),
      runWBody prog (WriteTrans.new m) m = .ok (.Ok v, t1) →
      ((t1.conflict = true → t1.dropTrans m = .ok m1 →
        STM.write_transaction prog (fuel + 1) m =
          STM.write_transaction prog fuel m1)
      ∧ (t1.conflict = false → writeAttempt t1 m = .ok (.committed m1) →
        STM.write_transaction prog (fuel + 1) m = .done (some v) m1)
      ∧ (t1.conflict = false → writeAttempt t1 m = .ok (.failed m1) →
        STM.write_transaction prog (fuel + 1) m =
          STM.write_transaction prog fuel m1)))
  ∧ (∀ (t1 : ReadTrans) (m1 : Memory) (res : STMResult R),
      runRBody rprog (ReadTrans.new m) m = .ok (res, t1, m1) →
      (res = .Abort →
        STM.read_transaction rprog (fuel + 1) m = .done none m1)
      ∧ (res = .Retry → t1.conflict = true →
        STM.read_transaction rprog (fuel + 1) m =
          STM.read_transaction rprog fuel m1)
      ∧ (res = .Retry → t1.conflict = false →
        STM.read_transaction rprog (fuel + 1) m = .done none m1)
      ∧ (∀ v, res = .Ok v → t1.conflict = true →
        STM.read_transaction rprog (fuel + 1) m =
          STM.read_transaction rprog fuel m1)
      ∧ (∀ v, res = .Ok v → t1.conflict = false →
        STM.read_transaction rprog (fuel + 1) m = .done (some v) m1)) := by
  refine ⟨?_, ?_, ?_, ?_⟩
  · intro t1 m1 h hd
    rw [STM.write_transaction.eq_2, h]
    simp only [hd]
  · intro t1 m1 h hd
    constructor
    · intro hc
      rw [STM.write_transaction.eq_2, h]
      simp only [hd, hc, if_true]
    · intro hc
      rw [STM.write_transaction.eq_2, h]
      simp only [hd, hc, Bool.false_eq_true, if_false]
  · intro v t1 m1 h
    refine ⟨?_, ?_, ?_⟩
    · intro hc hd
      rw [STM.write_transaction.eq_2, h]
      simp only [hd, hc, if_true]
    · intro hc hatt
      rw [STM.write_transaction.eq_2, h]
      simp only [hatt, hc, Bool.false_eq_true, if_false]
    · intro hc hatt
      rw [STM.write_transaction.eq_2, h]
      simp only [hatt, hc, Bool.false_eq_true, if_false]
  · intro t1 m1 res h
    refine ⟨?_, ?_, ?_, ?_, ?_⟩
    · intro hres
      subst hres
      rw [STM.read_transaction.eq_2, h]
    · intro hres hc
      subst hres
      rw [STM.read_transaction.eq_2, h]
      simp only [hc, if_true]
    · intro hres hc
      subst hres
      rw [STM.read_transaction.eq_2, h]
      simp only [hc, Bool.false_eq_true, if_false]
    · intro v hres hc
      subst hres
      rw [STM.read_transaction.eq_2, h]
      simp only [hc, if_true]
    · intro v hres hc
      subst hres
      rw [STM.read_transaction.eq_2, h]
      simp only [hc, Bool.false_eq_true, if_false]

section PreservationLemmas

theorem lock_addr_pres {m : Memory} {addr : Nat} {out : Bool × Memory}
    (h : m.lock_addr addr = .ok out) :
    out.2.mem = m.mem ∧ out.2.global_clock = m.global_clock ∧
    out.2.shift_size = m.shift_size ∧
    out.2.lock_ver.length = m.lock_ver.length := by
  unfold Memory.lock_addr at h
  split at h
  · exact Except.noConfusion h
  split at h
  · cases h
    exact ⟨rfl, rfl, rfl, by simp⟩
  · cases h
    exact ⟨rfl, rfl, rfl, rfl⟩

theorem unlock_addr_pres {m : Memory} {addr : Nat} {m1 : Memory}
    (h : m.unlock_addr addr = .ok m1) :
    m1.mem = m.mem ∧ m1.global_clock = m.global_clock ∧
    m1.shift_size = m.shift_size ∧
    m1.lock_ver.length = m.lock_ver.length := by
  unfold Memory.unlock_addr at h
  split at h
  · exact Except.noConfusion h
  · cases h
    exact ⟨rfl, rfl, rfl, by simp⟩

theorem lockWriteSetGo_pres {ws : List (Nat × List Nat)} :
    ∀ {t : WriteTrans} {m : Memory} {out : Bool × WriteTrans × Memory},
      lockWriteSetGo ws t m = .ok out →
      out.2.2.mem = m.mem ∧ out.2.2.global_clock = m.global_clock ∧
      out.2.2.shift_size = m.shift_size ∧
      out.2.2.lock_ver.length = m.lock_ver.length ∧
      out.2.1.read_version = t.read_version ∧
      out.2.1.write_set = t.write_set ∧
      out.2.1.read_set = t.read_set ∧
      out.2.1.conflict = t.conflict := by
  induction ws with
  | nil =>
    intro t m out h
    unfold lockWriteSetGo at h
    cases h
    exact ⟨rfl, rfl, rfl, rfl, rfl, rfl, rfl, rfl⟩
  | cons p rest ih =>
    obtain ⟨addr, val⟩ := p
    intro t m out h
    unfold lockWriteSetGo at h
    split at h
    · exact Except.noConfusion h
    · rename_i r hr
      have hp := lock_addr_pres hr
      split at h
      · have hi := ih h
        exact ⟨hi.1.trans hp.1, hi.2.1.trans hp.2.1, hi.2.2.1.trans hp.2.2.1,
          hi.2.2.2.1.trans hp.2.2.2, hi.2.2.2.2.1, hi.2.2.2.2.2.1,
          hi.2.2.2.2.2.2.1, hi.2.2.2.2.2.2.2⟩
      · cases h
        exact ⟨hp.1, hp.2.1, hp.2.2.1, hp.2.2.2, rfl, rfl, rfl, rfl⟩

theorem dropTransGo_pres {locked : List Nat} :
    ∀ {m m1 : Memory}, dropTransGo locked m = .ok m1 →
      m1.mem = m.mem ∧ m1.global_clock = m.global_clock ∧
      m1.shift_size = m.shift_size ∧
      m1.lock_ver.length = m.lock_ver.length := by
  induction locked with
  | nil =>
    intro m m1 h
    cases h
    exact ⟨rfl, rfl, rfl, rfl⟩
  | cons a rest ih =>
    intro m m1 h
    unfold dropTransGo at h
    split at h
    · exact Except.noConfusion h
    · rename_i m2 hm2
      have hp := unlock_addr_pres hm2
      have hi := ih h
      exact ⟨hi.1.trans hp.1, hi.2.1.trans hp.2.1, hi.2.2.1.trans hp.2.2.1,
        hi.2.2.2.trans hp.2.2.2⟩

theorem publishGo_pres {ws : List (Nat × List Nat)} {version : Nat} :
    ∀ {m m1 : Memory}, publishGo ws version m = .ok m1 →
      m1.mem = m.mem ∧ m1.global_clock = m.global_clock ∧
      m1.shift_size = m.shift_size ∧
      m1.lock_ver.length = m.lock_ver.length := by
  induction ws with
  | nil =>
    intro m m1 h
    cases h
    exact ⟨rfl, rfl, rfl, rfl⟩
  | cons p rest ih =>
    obtain ⟨addr, val⟩ := p
    intro m m1 h
    unfold publishGo at h
    split at h
    · have hi := ih h
      exact ⟨hi.1, hi.2.1, hi.2.2.1, hi.2.2.2.trans (by simp)⟩
    · exact Except.noConfusion h

theorem commit_pres {t : WriteTrans} {m : Memory} {version : Nat}
    {out : WriteTrans × Memory} (h : t.commit m version = .ok out) :
    out.1.locked = [] ∧ out.1.read_version = t.read_version ∧
    out.2.global_clock = m.global_clock ∧
    out.2.shift_size = m.shift_size ∧
    out.2.lock_ver.length = m.lock_ver.length := by
  unfold WriteTrans.commit at h
  split at h
  · exact Except.noConfusion h
  · rename_i mem1 hmem1
    split at h
    · exact Except.noConfusion h
    · rename_i m1 hm1
      cases h
      have hp := publishGo_pres hm1
      exact ⟨rfl, rfl, hp.2.1, hp.2.2.1, hp.2.2.2⟩

end PreservationLemmas

theorem validateGo_spec (t : WriteTrans) (m : Memory) :
    ∀ (rs : List Nat),
      (∀ addr ∈ rs, addr >>> m.shift_size < m.lock_ver.length) →
      validateGo t m rs = .ok (rs.all fun addr => validCheck t m addr) := by
  intro rs
  induction rs with
  | nil => intro _; rfl
  | cons a rest ih =>
    intro hin
    have ha : a >>> m.shift_size < m.lock_ver.length :=
      hin a (List.mem_cons_self a rest)
    obtain ⟨w, hw⟩ : ∃ w, m.lock_ver.get? (a >>> m.shift_size) = some w :=
      ⟨_, List.get?_eq_get ha⟩
    have hgetD : m.lock_ver.getD (a >>> m.shift_size) 0 = w := by
      rw [List.getD_eq_get?, hw]
      rfl
    unfold validateGo
    rcases hcase : (t.write_set.lookup a).isSome with _ | _
    · rw [if_neg (by simp [hcase]), test_not_modify_eq_some t.read_version hw]
      simp only [List.all_cons, validCheck, hcase, Bool.false_eq_true, if_false, hgetD]
      rcases hle : decide (w ≤ t.read_version) with _ | _
      · simp [hle]
      · simp only [hle, Bool.true_eq_false, if_false, Bool.true_and]
        exact ih fun addr haddr => hin addr (List.mem_cons_of_mem a haddr)
    · rw [if_pos (by simp [hcase]), get_version_eq_some hw]
      simp only [List.all_cons, validCheck, hcase, if_true, hgetD]
      rcases hle : decide (w &&& (LOCK_BIT - 1) ≤ t.read_version) with _ | _
      · have hgt : w &&& (LOCK_BIT - 1) > t.read_version := by
          simpa using hle
        rw [if_pos hgt]
        simp
      · have hgt : ¬ w &&& (LOCK_BIT - 1) > t.read_version := by
          simpa using hle
        rw [if_neg hgt]
        simp only [Bool.true_and]
        exact ih fun addr haddr => hin addr (List.mem_cons_of_mem a haddr)

/-- C2: after all write-set locks are acquired and `new_version` is fetched
from the clock, read-set validation is skipped iff
`new_version = read_version + 1`; otherwise the attempt commits iff every
read-set address passes its check — masked version (`get_version`) at most
`read_version` for addresses also in the write-set, whole versioned-lock
word at most `read_version` for the rest; a failed validation aborts the
attempt with no write-back (the memory bytes are unchanged) and the driver
retries. -/
theorem commit_validation_protocol {R : Type} :
    (∀ (t t1 : WriteTrans) (m m1 : Memory),
      t.lock_write_set m = .ok (true, t1, m1) →
      ((m1.inc_global_clock.1 = t1.read_version + 1 →
        writeAttempt t m =
          commitAndDrop t1 m1.inc_global_clock.2 m1.inc_global_clock.1)
      ∧ (m1.inc_global_clock.1 ≠ t1.read_version + 1 →
          t1.validate_read_set m1.inc_global_clock.2 = .ok true →
          writeAttempt t m =
            commitAndDrop t1 m1.inc_global_clock.2 m1.inc_global_clock.1)
      ∧ (∀ m3, m1.inc_global_clock.1 ≠ t1.read_version + 1 →
          t1.validate_read_set m1.inc_global_clock.2 = .ok false →
          t1.dropTrans m1.inc_global_clock.2 = .ok m3 →
          writeAttempt t m = .ok (.failed m3) ∧ m3.mem = m.mem)))
  ∧ (∀ (t : WriteTrans) (m : Memory),
      (∀ addr ∈ t.read_set, addr >>> m.shift_size < m.lock_ver.length) →
      (t.validate_read_set m = .ok true ↔
        ∀ addr ∈ t.read_set, validCheck t m addr = true))
  ∧ (∀ (prog : WProg R) (fuel : Nat) (m m1 : Memory) (v : R) (t1 : WriteTrans),
      runWBody prog (WriteTrans.new m) m = .ok (.Ok v, t1) →
      t1.conflict = false → writeAttempt t1 m = .ok (.failed m1) →
      STM.write_transaction prog (fuel + 1) m =
        STM.write_transaction prog fuel m1) := by
  refine ⟨?_, ?_, ?_⟩
  · intro t t1 m m1 hlock
    refine ⟨?_, ?_, ?_⟩
    · intro hfast
      unfold writeAttempt
      rw [hlock]
      simp only [hfast, ne_eq, not_true_eq_false, Bool.true_eq_false, if_false,
        ite_false, ite_true]
    · intro hslow hval
      unfold writeAttempt
      rw [hlock]
      simp only [Bool.true_eq_false, if_false, ite_false]
      rw [if_pos (by omega), hval]
      rfl
    · intro m3 hslow hval hdrop
      constructor
      · unfold writeAttempt
        rw [hlock]
        simp only [Bool.true_eq_false, if_false, ite_false]
        rw [if_pos (by omega), hval, hdrop]
        rfl
      · have h1 := (lockWriteSetGo_pres hlock).1
        have h2 : m1.inc_global_clock.2.mem = m1.mem := rfl
        have h3 := (dropTransGo_pres hdrop).1
        rw [h3, h2, h1]
  · intro t m hin
    unfold WriteTrans.validate_read_set
    rw [validateGo_spec t m t.read_set hin]
    constructor
    · intro h
      simp only [Except.ok.injEq] at h
      exact fun addr haddr => by
        have := List.all_eq_true.mp h addr haddr
        simpa using this
    · intro h
      have : t.read_set.all (fun addr => validCheck t m addr) = true :=
        List.all_eq_true.mpr fun addr haddr => by simpa using h addr haddr
      rw [this]
  · intro prog fuel m m1 v t1 h hc hatt
    rw [STM.write_transaction.eq_2, h]
    simp only [hatt, hc, Bool.false_eq_true, if_false]

section BodyInvariants

theorem wstore_pres {t : WriteTrans} {addr : Nat} {v : List Nat}
    {t1 : WriteTrans} (h : t.store addr v = .ok t1) :
    t1.read_version = t.read_version ∧ t1.locked = t.locked ∧
    t1.conflict = t.conflict := by
  unfold WriteTrans.store at h
  split at h
  · exact Except.noConfusion h
  · cases h
    exact ⟨rfl, rfl, rfl⟩

theorem wload_pres {t : WriteTrans} {m : Memory} {addr : Nat}
    {out : Option (List Nat) × WriteTrans} (h : t.load m addr = .ok out) :
    out.2.read_version = t.read_version ∧ out.2.locked = t.locked := by
  unfold WriteTrans.load at h
  split at h
  · exact Except.noConfusion h
  split at h
  · cases h
    exact ⟨rfl, rfl⟩
  dsimp only at h
  split at h
  · cases h
    exact ⟨rfl, rfl⟩
  split at h
  · exact Except.noConfusion h
  split at h
  · cases h
    exact ⟨rfl, rfl⟩
  split at h
  · exact Except.noConfusion h
  split at h
  · exact Except.noConfusion h
  split at h
  · cases h
    exact ⟨rfl, rfl⟩
  · cases h
    exact ⟨rfl, rfl⟩

theorem runWBody_pres {R : Type} (p : WProg R) :
    ∀ {t : WriteTrans} {m : Memory} {out : STMResult R × WriteTrans},
      runWBody p t m = .ok out →
      out.2.read_version = t.read_version ∧ out.2.locked = t.locked := by
  induction p with
  | ret r =>
    intro t m out h
    unfold runWBody at h
    cases h
    exact ⟨rfl, rfl⟩
  | loadThen addr k ih =>
    intro t m out h
    unfold runWBody at h
    split at h
    · exact Except.noConfusion h
    · rename_i o ho
      have h1 := wload_pres ho
      have h2 := ih _ h
      exact ⟨h2.1.trans h1.1, h2.2.trans h1.2⟩
  | storeThen addr v p2 ih =>
    intro t m out h
    unfold runWBody at h
    split at h
    · exact Except.noConfusion h
    · rename_i t2 ht2
      have h1 := wstore_pres ht2
      have h2 := ih h
      exact ⟨h2.1.trans h1.1, h2.2.trans h1.2.1⟩

end BodyInvariants

section ClockLemmas

theorem writeAttempt_clock {t : WriteTrans} {m : Memory} {out : AttemptResult}
    (hrv : t.read_version = m.global_clock)
    (hov : m.global_clock + 1 < WORD_MOD)
    (h : writeAttempt t m = .ok out) :
    (∀ m1, out = .failed m1 → m1.global_clock = m.global_clock) ∧
    (∀ m1, out = .committed m1 → m1.global_clock = m.global_clock + 1) := by
  unfold writeAttempt at h
  split at h
  · exact Except.noConfusion h
  rename_i r hr
  have hpres := lockWriteSetGo_pres hr
  dsimp only at h
  split at h
  · split at h
    · exact Except.noConfusion h
    · rename_i m1 hm1
      cases h
      have hd := dropTransGo_pres hm1
      refine ⟨fun m2 he => ?_, fun m2 he => AttemptResult.noConfusion he⟩
      cases he
      exact hd.2.1.trans hpres.2.1
  · have hnv : (r.2.2.inc_global_clock).1 = m.global_clock + 1 := by
      show (r.2.2.global_clock + 1) % WORD_MOD = m.global_clock + 1
      rw [hpres.2.1, Nat.mod_eq_of_lt hov]
    have hrv2 : r.2.1.read_version = m.global_clock :=
      hpres.2.2.2.2.1.trans hrv
    split at h
    · rename_i hcond
      exact absurd (by rw [hnv, hrv2]) hcond
    · unfold commitAndDrop at h
      split at h
      · exact Except.noConfusion h
      rename_i r2 hr2
      split at h
      · exact Except.noConfusion h
      rename_i m4 hm4
      cases h
      have hc := commit_pres hr2
      have hd := dropTransGo_pres hm4
      refine ⟨fun m2 he => AttemptResult.noConfusion he, fun m2 he => ?_⟩
      cases he
      calc m4.global_clock = r2.2.global_clock := hd.2.1
        _ = (r.2.2.inc_global_clock).2.global_clock := hc.2.2.1
        _ = m.global_clock + 1 := by
            show (r.2.2.global_clock + 1) % WORD_MOD = _
            rw [hpres.2.1, Nat.mod_eq_of_lt hov]

theorem write_transaction_clock {R : Type} (prog : WProg R) :
    ∀ (fuel : Nat) (m : Memory), m.global_clock + 1 < WORD_MOD →
      (∀ (res : Option R) (m' : Memory),
        STM.write_transaction prog fuel m = .done res m' →
        m'.global_clock = m.global_clock + (if res.isSome then 1 else 0))
      ∧ (∀ m', STM.write_transaction prog fuel m = .fuelOut m' →
        m'.global_clock = m.global_clock) := by
  intro fuel
  induction fuel with
  | zero =>
    intro m hov
    constructor
    · intro res m' h
      exact RunOutcome.noConfusion h
    · intro m' h
      unfold STM.write_transaction at h
      cases h
      rfl
  | succ n ih =>
    intro m hov
    constructor
    · intro res m' h
      rw [STM.write_transaction.eq_2] at h
      split at h
      · exact RunOutcome.noConfusion h
      · rename_i t1 hrun
        have hl : t1.locked = [] := (runWBody_pres prog hrun).2
        have hdrop : t1.dropTrans m = .ok m := by
          unfold WriteTrans.dropTrans
          rw [hl]
          rfl
        rw [hdrop] at h
        dsimp only at h
        cases h
        simp
      · rename_i t1 hrun
        have hl : t1.locked = [] := (runWBody_pres prog hrun).2
        have hdrop : t1.dropTrans m = .ok m := by
          unfold WriteTrans.dropTrans
          rw [hl]
          rfl
        rw [hdrop] at h
        dsimp only at h
        split at h
        · exact (ih m hov).1 res m' h
        · cases h
          simp
      · rename_i v t1 hrun
        have hl : t1.locked = [] := (runWBody_pres prog hrun).2
        have hrv : t1.read_version = m.global_clock := (runWBody_pres prog hrun).1
        split at h
        · have hdrop : t1.dropTrans m = .ok m := by
            unfold WriteTrans.dropTrans
            rw [hl]
            rfl
          rw [hdrop] at h
          dsimp only at h
          exact (ih m hov).1 res m' h
        · split at h
          · exact RunOutcome.noConfusion h
          · rename_i m1 hatt
            cases h
            simpa using (writeAttempt_clock hrv hov hatt).2 _ rfl
          · rename_i m1 hatt
            have hclk := (writeAttempt_clock hrv hov hatt).1 m1 rfl
            have hov1 : m1.global_clock + 1 < WORD_MOD := by
              rw [hclk]
              exact hov
            rw [(ih m1 hov1).1 res m' h, hclk]
    · intro m' h
      rw [STM.write_transaction.eq_2] at h
      split at h
      · exact RunOutcome.noConfusion h
      · rename_i t1 hrun
        have hl : t1.locked = [] := (runWBody_pres prog hrun).2
        have hdrop : t1.dropTrans m = .ok m := by
          unfold WriteTrans.dropTrans
          rw [hl]
          rfl
        rw [hdrop] at h
        dsimp only at h
        exact RunOutcome.noConfusion h
      · rename_i t1 hrun
        have hl : t1.locked = [] := (runWBody_pres prog hrun).2
        have hdrop : t1.dropTrans m = .ok m := by
          unfold WriteTrans.dropTrans
          rw [hl]
          rfl
        rw [hdrop] at h
        dsimp only at h
        split at h
        · exact (ih m hov).2 m' h
        · exact RunOutcome.noConfusion h
      · rename_i v t1 hrun
        have hl : t1.locked = [] := (runWBody_pres prog hrun).2
        have hrv : t1.read_version = m.global_clock := (runWBody_pres prog hrun).1
        split at h
        · have hdrop : t1.dropTrans m = .ok m := by
            unfold WriteTrans.dropTrans
            rw [hl]
            rfl
          rw [hdrop] at h
          dsimp only at h
          exact (ih m hov).2 m' h
        · split at h
          · exact RunOutcome.noConfusion h
          · exact RunOutcome.noConfusion h
          · rename_i m1 hatt
            have hclk := (writeAttempt_clock hrv hov hatt).1 m1 rfl
            have hov1 : m1.global_clock + 1 < WORD_MOD := by
              rw [hclk]
              exact hov
            rw [(ih m1 hov1).2 m' h, hclk]

end ClockLemmas

/-- C1: in the sequential embedding, a `write_transaction` call advances the
global clock by exactly one when it commits (result `some v`) and not at all
otherwise (abort, user retry exhaustion, fuel exhaustion), assuming the u64
clock does not overflow; `read_transaction` and every `ReadTrans::load`
leave the clock untouched. -/
theorem clock_advances_once_per_commit {R : Type} (wprog : WProg R)
    (rprog : RProg R) (fuel : Nat) (m : Memory)
    (hov : m.global_clock + 1 < WORD_MOD) :
    (∀ (res : Option R) (m' : Memory),
      STM.write_transaction wprog fuel m = .done res m' →
      m'.global_clock = m.global_clock + (if res.isSome then 1 else 0))
  ∧ (∀ m', STM.write_transaction wprog fuel m = .fuelOut m' →
      m'.global_clock = m.global_clock)
  ∧ (∀ (res : Option R) (m' : Memory),
      STM.read_transaction rprog fuel m = .done res m' →
      m'.global_clock = m.global_clock)
  ∧ (∀ m', STM.read_transaction rprog fuel m = .fuelOut m' →
      m'.global_clock = m.global_clock)
  ∧ (∀ (t : ReadTrans) (addr : Nat)
      (out : Option (List Nat) × ReadTrans × Memory),
      t.load m addr = .ok out → out.2.2.global_clock = m.global_clock) := by
  refine ⟨(write_transaction_clock wprog fuel m hov).1,
    (write_transaction_clock wprog fuel m hov).2,
    fun res m' h => ?_, fun m' h => ?_, fun t addr out h => ?_⟩
  · rw [(read_transaction_mem_eq rprog fuel m).1 res m' h]
  · rw [(read_transaction_mem_eq rprog fuel m).2 m' h]
  · rw [(rload_mem_pres h).1]

section BitHelpers

theorem lock_bit_lt_word_mod : LOCK_BIT < WORD_MOD := by
  rw [lock_bit_eq, word_mod_eq]
  norm_num

theorem or_lock_bit_and_ne_zero (x : Nat) : (x ||| LOCK_BIT) &&& LOCK_BIT ≠ 0 := by
  rw [lock_bit_eq, Nat.and_two_pow, Nat.testBit_or, Nat.testBit_two_pow_self]
  simp

theorem and_mask_and_lock_bit (x : Nat) : (x &&& (LOCK_BIT - 1)) &&& LOCK_BIT = 0 := by
  have h1 : x &&& (LOCK_BIT - 1) < 2 ^ 63 := by
    rw [and_mask_eq_mod]
    exact Nat.mod_lt _ (by positivity)
  rw [lock_bit_eq] at h1 ⊢
  rw [Nat.and_two_pow, Nat.testBit_eq_false_of_lt h1]
  simp

theorem lt_lock_bit_and_zero {v : Nat} (h : v < LOCK_BIT) : v &&& LOCK_BIT = 0 := by
  rw [lock_bit_eq] at h ⊢
  rw [Nat.and_two_pow, Nat.testBit_eq_false_of_lt h]
  simp

theorem getD_of_get? {l : List Nat} {n w : Nat} (h : l.get? n = some w) :
    l.getD n 0 = w := by
  rw [List.getD_eq_get?, h]
  rfl

theorem lt_length_of_get? {l : List Nat} {n w : Nat} (h : l.get? n = some w) :
    n < l.length := by
  rcases List.get?_eq_some.mp h with ⟨h1, _⟩
  exact h1

theorem getD_set_word (l : List Nat) (n i a : Nat) :
    (l.set n a).getD i 0 = if n = i ∧ n < l.length then a else l.getD i 0 := by
  rw [List.getD_eq_get?, List.getD_eq_get?, List.get?_set]
  by_cases h : n = i
  · subst h
    by_cases hl : n < l.length
    · simp [hl, List.get?_eq_get hl]
    · have hnone : l[n]? = none := by
        rw [← List.get?_eq_getElem?]
        exact List.get?_eq_none.mpr (le_of_not_lt hl)
      simp [hnone, hl]
  · simp [h]

end BitHelpers

section WordLemmas

theorem publishGo_words {version : Nat} :
    ∀ (ws : List (Nat × List Nat)) {m m1 : Memory},
      publishGo ws version m = .ok m1 →
      ∀ i, m1.lock_ver.getD i 0 =
        if i ∈ ws.map (fun p => p.1 >>> m.shift_size) then version
        else m.lock_ver.getD i 0 := by
  intro ws
  induction ws with
  | nil =>
    intro m m1 h i
    cases h
    simp
  | cons p rest ih =>
    obtain ⟨addr, val⟩ := p
    intro m m1 h i
    unfold publishGo at h
    split at h
    · rename_i hlt
      have hi := ih h i
      dsimp only at hi
      rw [hi, getD_set_word]
      simp only [List.map_cons, List.mem_cons]
      by_cases hmem : i ∈ List.map (fun p => p.1 >>> m.shift_size) rest
      · rw [if_pos hmem, if_pos (Or.inr hmem)]
      · rw [if_neg hmem]
        by_cases his : addr >>> m.shift_size = i
        · rw [if_pos ⟨his, hlt⟩, if_pos (Or.inl his.symm)]
        · rw [if_neg (by tauto), if_neg (by tauto)]
    · exact Except.noConfusion h

theorem dropTransGo_words :
    ∀ (L : List Nat) {m m1 : Memory},
      dropTransGo L m = .ok m1 →
      (L.map fun a => a >>> m.shift_size).Nodup →
      ∀ i, m1.lock_ver.getD i 0 =
        if i ∈ L.map (fun a => a >>> m.shift_size)
        then (m.lock_ver.getD i 0) &&& (LOCK_BIT - 1)
        else m.lock_ver.getD i 0 := by
  intro L
  induction L with
  | nil =>
    intro m m1 h _ i
    cases h
    simp
  | cons a rest ih =>
    intro m m1 h hnd i
    unfold dropTransGo at h
    split at h
    · exact Except.noConfusion h
    · rename_i m2 hm2
      unfold Memory.unlock_addr at hm2
      split at hm2
      · exact Except.noConfusion hm2
      · rename_i w hw
        cases hm2
        have hs : a >>> m.shift_size < m.lock_ver.length := lt_length_of_get? hw
        have hwD : m.lock_ver.getD (a >>> m.shift_size) 0 = w := getD_of_get? hw
        rw [List.map_cons, List.nodup_cons] at hnd
        have hi := ih h (by dsimp only; exact hnd.2) i
        dsimp only at hi
        rw [hi, getD_set_word]
        simp only [List.map_cons, List.mem_cons]
        by_cases hmem : i ∈ List.map (fun x => x >>> m.shift_size) rest
        · have hne : ¬ a >>> m.shift_size = i := fun he => hnd.1 (he ▸ hmem)
          rw [if_pos hmem, if_pos (Or.inr hmem), if_neg (by tauto)]
        · rw [if_neg hmem]
          by_cases his : a >>> m.shift_size = i
          · rw [if_pos ⟨his, hs⟩, if_pos (Or.inl his.symm), ← his, hwD]
          · rw [if_neg (by tauto), if_neg (by tauto)]
    
end WordLemmas

theorem lockWriteSetGo_chr :
    ∀ (ws : List (Nat × List Nat)) {t : WriteTrans} {m : Memory}
      {out : Bool × WriteTrans × Memory},
      lockWriteSetGo ws t m = .ok out →
      ∃ acq : List Nat,
        out.2.1.locked = t.locked ++ acq ∧
        (∀ a ∈ acq, a ∈ ws.map Prod.fst) ∧
        (acq.map fun a => a >>> m.shift_size).Nodup ∧
        (∀ a ∈ acq, (m.lock_ver.getD (a >>> m.shift_size) 0) &&& LOCK_BIT = 0) ∧
        (∀ i, out.2.2.lock_ver.getD i 0 =
          if i ∈ acq.map (fun a => a >>> m.shift_size)
          then (m.lock_ver.getD i 0) ||| LOCK_BIT
          else m.lock_ver.getD i 0) ∧
        (out.1 = true → ∀ p ∈ ws, p.1 ∈ acq) := by
  intro ws
  induction ws with
  | nil =>
    intro t m out h
    cases h
    refine ⟨[], by simp, by simp, by simp, by simp, fun i => by simp,
      fun _ p hp => absurd hp (List.not_mem_nil p)⟩
  | cons p rest ih =>
    obtain ⟨addr, val⟩ := p
    intro t m out h
    unfold lockWriteSetGo at h
    split at h
    · exact Except.noConfusion h
    · rename_i r hr
      unfold Memory.lock_addr at hr
      split at hr
      · exact Except.noConfusion hr
      · rename_i w hw
        split at hr
        · -- lock acquired
          rename_i hbit
          cases hr
          rw [if_pos rfl] at h
          have hs : addr >>> m.shift_size < m.lock_ver.length := lt_length_of_get? hw
          have hwD : m.lock_ver.getD (addr >>> m.shift_size) 0 = w := getD_of_get? hw
          obtain ⟨acq, hA1, hA2, hA3, hA4, hA5, hA6⟩ := ih h
          dsimp only at hA1 hA2 hA3 hA4 hA5 hA6
          have hsetD : ∀ i,
              (m.lock_ver.set (addr >>> m.shift_size) (w ||| LOCK_BIT)).getD i 0 =
              if addr >>> m.shift_size = i then w ||| LOCK_BIT
              else m.lock_ver.getD i 0 := by
            intro i
            rw [getD_set_word]
            by_cases his : addr >>> m.shift_size = i
            · rw [if_pos ⟨his, hs⟩, if_pos his]
            · rw [if_neg (by tauto), if_neg his]
          have hsep : addr >>> m.shift_size ∉ acq.map fun a => a >>> m.shift_size := by
            intro hmem
            rcases List.mem_map.mp hmem with ⟨a, ha, hae⟩
            have h4 := hA4 a ha
            rw [hae, hsetD] at h4
            rw [if_pos rfl] at h4
            exact or_lock_bit_and_ne_zero w h4
          refine ⟨addr :: acq, ?_, ?_, ?_, ?_, ?_, ?_⟩
          · rw [hA1]
            rw [← List.append_cons]
          · intro a ha
            rcases List.mem_cons.mp ha with ha | ha
            · subst ha
              simp
            · have := hA2 a ha
              simp only [List.map_cons, List.mem_cons]
              right
              exact this
          · rw [List.map_cons, List.nodup_cons]
            exact ⟨hsep, hA3⟩
          · intro a ha
            rcases List.mem_cons.mp ha with ha | ha
            · subst ha
              rw [hwD]
              exact hbit
            · have h4 := hA4 a ha
              rw [hsetD] at h4
              have hne : ¬ addr >>> m.shift_size = a >>> m.shift_size := by
                intro he
                exact hsep (he ▸ List.mem_map_of_mem _ ha)
              rw [if_neg hne] at h4
              exact h4
          · intro i
            have h5 := hA5 i
            rw [hsetD] at h5
            simp only [List.map_cons, List.mem_cons]
            by_cases hmem : i ∈ acq.map fun a => a >>> m.shift_size
            · have hne : ¬ addr >>> m.shift_size = i := by
                intro he
                exact hsep (he ▸ hmem)
              rw [if_pos hmem, if_neg hne] at h5
              rw [h5, if_pos (Or.inr hmem)]
            · rw [if_neg hmem] at h5
              by_cases his : addr >>> m.shift_size = i
              · rw [if_pos his] at h5
                rw [h5, if_pos (Or.inl his.symm), ← his, hwD]
              · rw [if_neg his] at h5
                rw [h5, if_neg (by tauto)]
          · intro htrue q hq
            rcases List.mem_cons.mp hq with hq | hq
            · subst hq
              simp
            · exact List.mem_cons_of_mem _ (hA6 htrue q hq)
        · -- lock bit already set: failure
          cases hr
          rw [if_neg (by simp)] at h
          cases h
          refine ⟨[], by simp, by simp, by simp, by simp, fun i => by simp,
            fun htrue => absurd htrue (by simp)⟩

theorem writeAttempt_bits {t : WriteTrans} {m : Memory} {out : AttemptResult}
    (hlocked : t.locked = [])
    (hrv : t.read_version = m.global_clock)
    (hov : m.global_clock + 1 < LOCK_BIT)
    (h : writeAttempt t m = .ok out) :
    ∀ m1, out = .failed m1 ∨ out = .committed m1 →
      ∀ i, (m1.lock_ver.getD i 0) &&& LOCK_BIT =
        (m.lock_ver.getD i 0) &&& LOCK_BIT := by
  have hovW : m.global_clock + 1 < WORD_MOD := lt_trans hov lock_bit_lt_word_mod
  unfold writeAttempt at h
  split at h
  · exact Except.noConfusion h
  rename_i r hr
  have hpres := lockWriteSetGo_pres hr
  unfold WriteTrans.lock_write_set at hr
  obtain ⟨acq, hA1, hA2, hA3, hA4, hA5, hA6⟩ := lockWriteSetGo_chr t.write_set hr
  have hlr : r.2.1.locked = acq := by
    rw [hA1, hlocked, List.nil_append]
  have hsh : r.2.2.shift_size = m.shift_size := hpres.2.2.1
  dsimp only at h
  split at h
  · split at h
    · exact Except.noConfusion h
    · rename_i m1 hm1
      cases h
      intro m2 hor i
      rcases hor with he | he
      · cases he
        unfold WriteTrans.dropTrans at hm1
        rw [hlr] at hm1
        have hw := dropTransGo_words acq hm1 (by simp only [hsh]; exact hA3) i
        simp only [hsh] at hw
        by_cases hmem : i ∈ acq.map fun a => a >>> m.shift_size
        · rw [hw, if_pos hmem, hA5 i, if_pos hmem, and_mask_and_lock_bit]
          rcases List.mem_map.mp hmem with ⟨a, ha, hae⟩
          rw [← hae]
          exact (hA4 a ha).symm
        · rw [hw, if_neg hmem, hA5 i, if_neg hmem]
      · exact AttemptResult.noConfusion he
  · rename_i hsucc
    have hr1 : r.1 = true := by
      revert hsucc
      cases r.1 <;> simp
    have hnv : (r.2.2.inc_global_clock).1 = m.global_clock + 1 := by
      show (r.2.2.global_clock + 1) % WORD_MOD = m.global_clock + 1
      rw [hpres.2.1, Nat.mod_eq_of_lt hovW]
    have hrv2 : r.2.1.read_version = m.global_clock :=
      hpres.2.2.2.2.1.trans hrv
    split at h
    · rename_i hcond
      exact absurd (by rw [hnv, hrv2]) hcond
    · unfold commitAndDrop at h
      split at h
      · exact Except.noConfusion h
      rename_i r2 hr2
      split at h
      · exact Except.noConfusion h
      rename_i m4 hm4
      cases h
      intro m2 hor i
      rcases hor with he | he
      · exact AttemptResult.noConfusion he
      cases he
      have hcw := commit_pres hr2
      have hm4e : m4 = r2.2 := by
        unfold WriteTrans.dropTrans at hm4
        rw [hcw.1] at hm4
        cases hm4
        rfl
      subst hm4e
      unfold WriteTrans.commit at hr2
      split at hr2
      · exact Except.noConfusion hr2
      rename_i mem1 hwb
      split at hr2
      · exact Except.noConfusion hr2
      rename_i mpub hpub
      cases hr2
      have hws : r.2.1.write_set = t.write_set := hpres.2.2.2.2.2.1
      have hnv2 : (r.2.2.global_clock + 1) % WORD_MOD = m.global_clock + 1 := hnv
      have hpw := publishGo_words r.2.1.write_set hpub i
      dsimp only [Memory.inc_global_clock] at hpw
      simp only [hsh, hws, hnv2] at hpw
      rw [hpw]
      by_cases hmem : i ∈ t.write_set.map fun p => p.1 >>> m.shift_size
      · rw [if_pos hmem, lt_lock_bit_and_zero hov]
        rcases List.mem_map.mp hmem with ⟨p, hp, hpe⟩
        have hin : p.1 ∈ acq := hA6 hr1 p hp
        have h4 := hA4 p.1 hin
        rw [hpe] at h4
        exact h4.symm
      · rw [if_neg hmem]
        have hnotacq : i ∉ acq.map fun a => a >>> m.shift_size := by
          intro hmem2
          rcases List.mem_map.mp hmem2 with ⟨a, ha, hae⟩
          rcases List.mem_map.mp (hA2 a ha) with ⟨p, hp, hpe⟩
          exact hmem (List.mem_map.mpr ⟨p, hp, by rw [hpe, hae]⟩)
        rw [hA5 i, if_neg hnotacq]

theorem write_transaction_bits {R : Type} (prog : WProg R) :
    ∀ (fuel : Nat) (m : Memory), m.global_clock + 1 < LOCK_BIT →
      ∀ m' : Memory,
        ((∃ res, STM.write_transaction prog fuel m = .done res m') ∨
          STM.write_transaction prog fuel m = .fuelOut m') →
        ∀ i, (m'.lock_ver.getD i 0) &&& LOCK_BIT =
          (m.lock_ver.getD i 0) &&& LOCK_BIT := by
  intro fuel
  induction fuel with
  | zero =>
    intro m hov m' hor i
    rcases hor with ⟨res, h⟩ | h
    · exact RunOutcome.noConfusion h
    · unfold STM.write_transaction at h
      cases h
      rfl
  | succ n ih =>
    intro m hov m' hor i
    have hovW : m.global_clock + 1 < WORD_MOD := lt_trans hov lock_bit_lt_word_mod
    rcases hor with ⟨res, h⟩ | h
    · rw [STM.write_transaction.eq_2] at h
      split at h
      · exact RunOutcome.noConfusion h
      · rename_i t1 hrun
        have hl : t1.locked = [] := (runWBody_pres prog hrun).2
        have hdrop : t1.dropTrans m = .ok m := by
          unfold WriteTrans.dropTrans
          rw [hl]
          rfl
        rw [hdrop] at h
        dsimp only at h
        cases h
        rfl
      · rename_i t1 hrun
        have hl : t1.locked = [] := (runWBody_pres prog hrun).2
        have hdrop : t1.dropTrans m = .ok m := by
          unfold WriteTrans.dropTrans
          rw [hl]
          rfl
        rw [hdrop] at h
        dsimp only at h
        split at h
        · exact ih m hov m' (Or.inl ⟨res, h⟩) i
        · cases h
          rfl
      · rename_i v t1 hrun
        have hl : t1.locked = [] := (runWBody_pres prog hrun).2
        have hrv : t1.read_version = m.global_clock := (runWBody_pres prog hrun).1
        split at h
        · have hdrop : t1.dropTrans m = .ok m := by
            unfold WriteTrans.dropTrans
            rw [hl]
            rfl
          rw [hdrop] at h
          dsimp only at h
          exact ih m hov m' (Or.inl ⟨res, h⟩) i
        · split at h
          · exact RunOutcome.noConfusion h
          · rename_i m1 hatt
            cases h
            exact writeAttempt_bits hl hrv hov hatt _ (Or.inr rfl) i
          · rename_i m1 hatt
            have hb1 := writeAttempt_bits hl hrv hov hatt m1 (Or.inl rfl) i
            have hclk := (writeAttempt_clock hrv hovW hatt).1 m1 rfl
            have hov1 : m1.global_clock + 1 < LOCK_BIT := by
              rw [hclk]
              exact hov
            exact (ih m1 hov1 m' (Or.inl ⟨res, h⟩) i).trans hb1
    · rw [STM.write_transaction.eq_2] at h
      split at h
      · exact RunOutcome.noConfusion h
      · rename_i t1 hrun
        have hl : t1.locked = [] := (runWBody_pres prog hrun).2
        have hdrop : t1.dropTrans m = .ok m := by
          unfold WriteTrans.dropTrans
          rw [hl]
          rfl
        rw [hdrop] at h
        dsimp only at h
        exact RunOutcome.noConfusion h
      · rename_i t1 hrun
        have hl : t1.locked = [] := (runWBody_pres prog hrun).2
        have hdrop : t1.dropTrans m = .ok m := by
          unfold WriteTrans.dropTrans
          rw [hl]
          rfl
        rw [hdrop] at h
        dsimp only at h
        split at h
        · exact ih m hov m' (Or.inr h) i
        · exact RunOutcome.noConfusion h
      · rename_i v t1 hrun
        have hl : t1.locked = [] := (runWBody_pres prog hrun).2
        have hrv : t1.read_version = m.global_clock := (runWBody_pres prog hrun).1
        split at h
        · have hdrop : t1.dropTrans m = .ok m := by
            unfold WriteTrans.dropTrans
            rw [hl]
            rfl
          rw [hdrop] at h
          dsimp only at h
          exact ih m hov m' (Or.inr h) i
        · split at h
          · exact RunOutcome.noConfusion h
          · exact RunOutcome.noConfusion h
          · rename_i m1 hatt
            have hb1 := writeAttempt_bits hl hrv hov hatt m1 (Or.inl rfl) i
            have hclk := (writeAttempt_clock hrv hovW hatt).1 m1 rfl
            have hov1 : m1.global_clock + 1 < LOCK_BIT := by
              rw [hclk]
              exact hov
            exact (ih m1 hov1 m' (Or.inr h) i).trans hb1

/-- C5: on every exit path of a write transaction each locked address ends
unlocked with its version intact — `commit` publishes `version` (whose lock
bit is clear for any version below `2 ^ 63`) to exactly the write-set
stripes and empties `locked`; the destructor clears just the lock bit of
every address still in the list, preserving the 63-bit version and touching
no other stripe; and across a whole `write_transaction` run (commit, abort
or retry) every stripe's lock bit is exactly what it was at the start. -/
theorem locks_released_every_exit {R : Type} :
    (∀ (t : WriteTrans) (m : Memory) (version : Nat) (out : WriteTrans × Memory),
      t.commit m version = .ok out →
      out.1.locked = [] ∧
      ∀ i, out.2.lock_ver.getD i 0 =
        if i ∈ t.write_set.map (fun p => p.1 >>> m.shift_size) then version
        else m.lock_ver.getD i 0)
  ∧ (∀ (L : List Nat) (m m1 : Memory),
      dropTransGo L m = .ok m1 →
      (L.map fun a => a >>> m.shift_size).Nodup →
      (∀ a ∈ L,
        m1.lock_ver.getD (a >>> m.shift_size) 0 =
          (m.lock_ver.getD (a >>> m.shift_size) 0) &&& (LOCK_BIT - 1) ∧
        (m1.lock_ver.getD (a >>> m.shift_size) 0) &&& LOCK_BIT = 0)
      ∧ (∀ i, i ∉ L.map (fun a => a >>> m.shift_size) →
          m1.lock_ver.getD i 0 = m.lock_ver.getD i 0))
  ∧ (∀ (prog : WProg R) (fuel : Nat) (m : Memory),
      m.global_clock + 1 < LOCK_BIT →
      ∀ m' : Memory,
        ((∃ res, STM.write_transaction prog fuel m = .done res m') ∨
          STM.write_transaction prog fuel m = .fuelOut m') →
        ∀ i, (m'.lock_ver.getD i 0) &&& LOCK_BIT =
          (m.lock_ver.getD i 0) &&& LOCK_BIT) := by
  refine ⟨?_, ?_, fun prog fuel m hov => write_transaction_bits prog fuel m hov⟩
  · intro t m version out h
    unfold WriteTrans.commit at h
    split at h
    · exact Except.noConfusion h
    rename_i mem1 hwb
    split at h
    · exact Except.noConfusion h
    rename_i mpub hpub
    cases h
    exact ⟨rfl, fun i => publishGo_words t.write_set hpub i⟩
  · intro L m m1 h hnd
    have hw := dropTransGo_words L h hnd
    refine ⟨fun a ha => ?_, fun i hi => ?_⟩
    · have h1 := hw (a >>> m.shift_size)
      rw [if_pos (List.mem_map_of_mem _ ha)] at h1
      refine ⟨h1, ?_⟩
      rw [h1]
      exact and_mask_and_lock_bit _
    · have h1 := hw i
      rw [if_neg hi] at h1
      exact h1

/-- Witness for C1: a concrete committing run advances the clock from 0
to 1. -/
theorem clock_advances_once_per_commit_witness :
    STM.write_transaction wprog1 1 Memory.new = RunOutcome.done (some 5) wMem1 ∧
    wMem1.global_clock = Memory.new.global_clock + 1 := by
  refine ⟨by rfl, ?_⟩
  have h := (clock_advances_once_per_commit wprog1 rprog1 1 Memory.new
    (by decide)).1 (some 5) wMem1 (by rfl)
  simpa using h

/-- Witness for C2: a concrete locked attempt whose snapshot is stale fails
validation, releases its lock and leaves the bytes untouched. -/
theorem commit_validation_protocol_witness :
    writeAttempt c2t c2m = Except.ok (AttemptResult.failed c2m3) ∧
    c2m3.mem = c2m.mem :=
  ((commit_validation_protocol (R := Nat)).1 c2t c2t1 c2m c2m1 (by decide)).2.2
    c2m3 (by decide) (by decide) (by decide)

/-- Witness for C3: after `store(0, stripe1s)` a `load(0)` returns the
buffered stripe. -/
theorem read_your_own_writes_witness :
    c3t1.load Memory.new 0 =
      Except.ok (some stripe1s, { c3t1 with read_set := rsInsert c3t1.read_set 0 }) :=
  read_your_own_writes.1 (WriteTrans.new Memory.new) c3t1 0 stripe1s Memory.new
    (by rfl) (by rfl)

/-- Witness for C4: on the fresh memory the double-checked load of stripe 0
passes both checks and returns the copied bytes. -/
theorem read_load_double_check_witness :
    (ReadTrans.new Memory.new).load Memory.new 0 =
      Except.ok
        (some ((List.range STRIPE_SIZE).map fun i => Memory.new.mem.getD (0 + i) 0),
          ReadTrans.new Memory.new, Memory.new) :=
  (read_load_double_check.2 (ReadTrans.new Memory.new) Memory.new 0 0
    (by decide) (by rfl) (by decide) (by decide)).2 (by decide)

/-- Witness for C5: the concrete committing run leaves stripe 0's lock bit
as it found it. -/
theorem locks_released_every_exit_witness :
    (wMem1.lock_ver.getD 0 0) &&& LOCK_BIT =
      (Memory.new.lock_ver.getD 0 0) &&& LOCK_BIT :=
  (locks_released_every_exit (R := Nat)).2.2 wprog1 1 Memory.new (by decide)
    wMem1 (Or.inl ⟨some 5, by rfl⟩) 0

/-- Witness for C6 (amended): `store(3, _)` panics at the alignment assert,
while the aligned out-of-range `store(512, _)` is buffered. -/
theorem misaligned_access_fails_fast_witness :
    (WriteTrans.new Memory.new).store 3 stripe1s = Except.error () ∧
    (WriteTrans.new Memory.new).store 512 stripe1s =
      Except.ok { WriteTrans.new Memory.new with
        write_set := wsInsert (WriteTrans.new Memory.new).write_set 512 stripe1s } :=
  ⟨(misaligned_access_fails_fast.1 3 (by decide)).1 (WriteTrans.new Memory.new) stripe1s,
   misaligned_access_fails_fast.2 512 (WriteTrans.new Memory.new) stripe1s (by decide)⟩

/-- Witness for C7: a body returning `Abort` makes the write driver return
nil at once. -/
theorem driver_dispatch_witness :
    STM.write_transaction (WProg.ret (STMResult.Abort) : WProg Nat) 1 Memory.new =
      RunOutcome.done none Memory.new :=
  (driver_dispatch (WProg.ret (STMResult.Abort) : WProg Nat)
    (RProg.ret (STMResult.Abort)) 0 Memory.new).1
    (WriteTrans.new Memory.new) Memory.new (by rfl) (by rfl)

/-- Witness for C8: word 5 with the lock bit clear passes against
snapshot 7. -/
theorem test_not_modify_single_compare_witness :
    m8.test_not_modify 0 7 = Except.ok true :=
  (test_not_modify_single_compare m8 0 7 5 5 (by decide) (by decide) (by decide)
    (by decide)).1.mpr ⟨by decide, by decide⟩

/-- Witness for C10: a concrete read run returns its value and hands the
starting memory back unchanged. -/
theorem read_transaction_no_mutation_witness :
    STM.read_transaction rprog1 1 Memory.new = RunOutcome.done (some 8) Memory.new ∧
    Memory.new = Memory.new :=
  ⟨by rfl, (read_transaction_no_mutation rprog1 1 Memory.new).2.1 (some 8)
    Memory.new (by rfl)⟩
